import Mathlib

/-!
Shallow embedding of the `c07` software rasterizer (`src/c07/src/our_gl.rs`,
`src/c07/src/shaders.rs`, `src/c07/src/main.rs`).

Machine `f32` arithmetic is modelled by exact rational arithmetic (`ℚ`); the
transform-builder functions, whose `normalize` calls take square roots, are
modelled over `ℝ` with `Real.sqrt`.  Rust's saturating float→integer `as`
casts are modelled explicitly.  Panics of `image::ImageBuffer::get_pixel` /
`put_pixel` on out-of-bounds coordinates are captured by recording the trace
of accessed coordinates, so that "no panic" is "every traced coordinate is in
bounds".
-/

set_option maxRecDepth 400000

namespace TinyRenderer

/-- 2-D vector over a scalar field (cgmath `Vector2`). -/
structure V2 (α : Type) where
  x : α
  y : α
deriving DecidableEq, Repr

/-- 3-D vector over a scalar field (cgmath `Vector3`). -/
structure V3 (α : Type) where
  x : α
  y : α
  z : α
deriving DecidableEq, Repr

/-- 4-D vector over a scalar field (cgmath `Vector4`). -/
structure V4 (α : Type) where
  x : α
  y : α
  z : α
  w : α
deriving DecidableEq, Repr

/-- cgmath `Vector3::cross`. -/
def cross3 {α : Type} [Field α] (a b : V3 α) : V3 α :=
  ⟨a.y * b.z - a.z * b.y, a.z * b.x - a.x * b.z, a.x * b.y - a.y * b.x⟩

/-- cgmath `dot` for `Vector3`. -/
def dot3 {α : Type} [Field α] (a b : V3 α) : α :=
  a.x * b.x + a.y * b.y + a.z * b.z

/-- Componentwise subtraction of 3-D vectors. -/
def sub3 {α : Type} [Field α] (a b : V3 α) : V3 α :=
  ⟨a.x - b.x, a.y - b.y, a.z - b.z⟩

/-- Scalar multiple of a 3-D vector. -/
def smul3 {α : Type} [Field α] (k : α) (v : V3 α) : V3 α :=
  ⟨k * v.x, k * v.y, k * v.z⟩

/-- Componentwise addition of 3-D vectors. -/
def add3 {α : Type} [Field α] (a b : V3 α) : V3 α :=
  ⟨a.x + b.x, a.y + b.y, a.z + b.z⟩

/-- cgmath `Vector3::extend`. -/
def extend3 {α : Type} (v : V3 α) (w : α) : V4 α :=
  ⟨v.x, v.y, v.z, w⟩

/-- `our_gl.rs` line 6: `pub const DEPTH: f32 = 255.0` (polymorphic so the
same constant serves the rational and the real developments). -/
def DEPTH (α : Type) [Field α] : α := 255

/-- `our_gl.rs` line 7: `const EPSILON: f32 = 1e-2`. -/
def EPSILON : ℚ := 1 / 100

/-! ### 4×4 matrices

cgmath's `Matrix4` is stored by columns; `Matrix4::new` receives the sixteen
entries column-major.  We name the fields `cIJ` for column `I`, row `J`. -/

/-- cgmath `Matrix4`, fields column-major: `cIJ` is column `I`, row `J`. -/
structure Mat4 (α : Type) where
  c00 : α
  c01 : α
  c02 : α
  c03 : α
  c10 : α
  c11 : α
  c12 : α
  c13 : α
  c20 : α
  c21 : α
  c22 : α
  c23 : α
  c30 : α
  c31 : α
  c32 : α
  c33 : α
deriving DecidableEq, Repr

namespace Mat4

/-- Matrix–vector product (cgmath `Matrix4 * Vector4`). -/
def mulVec {α : Type} [Field α] (m : Mat4 α) (v : V4 α) : V4 α :=
  ⟨m.c00 * v.x + m.c10 * v.y + m.c20 * v.z + m.c30 * v.w,
   m.c01 * v.x + m.c11 * v.y + m.c21 * v.z + m.c31 * v.w,
   m.c02 * v.x + m.c12 * v.y + m.c22 * v.z + m.c32 * v.w,
   m.c03 * v.x + m.c13 * v.y + m.c23 * v.z + m.c33 * v.w⟩

/-- cgmath `Matrix4::transpose`. -/
def transpose {α : Type} (m : Mat4 α) : Mat4 α :=
  ⟨m.c00, m.c10, m.c20, m.c30,
   m.c01, m.c11, m.c21, m.c31,
   m.c02, m.c12, m.c22, m.c32,
   m.c03, m.c13, m.c23, m.c33⟩

/-- cgmath `Matrix4::from_cols` (each column given as a `Vector4`). -/
def fromCols {α : Type} (a b c d : V4 α) : Mat4 α :=
  ⟨a.x, a.y, a.z, a.w,
   b.x, b.y, b.z, b.w,
   c.x, c.y, c.z, c.w,
   d.x, d.y, d.z, d.w⟩

/-- Matrix–matrix product (cgmath `Matrix4 * Matrix4`): column `j` of the
product is `m` applied to column `j` of `n`. -/
def mul {α : Type} [Field α] (m n : Mat4 α) : Mat4 α :=
  fromCols
    (m.mulVec ⟨n.c00, n.c01, n.c02, n.c03⟩)
    (m.mulVec ⟨n.c10, n.c11, n.c12, n.c13⟩)
    (m.mulVec ⟨n.c20, n.c21, n.c22, n.c23⟩)
    (m.mulVec ⟨n.c30, n.c31, n.c32, n.c33⟩)

end Mat4

/-- `our_gl.rs` lines 9–30: the viewport matrix.  `Matrix4::new` is
column-major, so the first four arguments `width/2, 0, 0, 0` are column 0
and the last four `x + width/2, y + height/2, DEPTH/2, 1` are column 3. -/
def viewport {α : Type} [Field α] (x y width height : α) : Mat4 α :=
  ⟨width / 2, 0, 0, 0,
   0, height / 2, 0, 0,
   0, 0, DEPTH α / 2, 0,
   x + width / 2, y + height / 2, DEPTH α / 2, 1⟩

/-- `our_gl.rs` lines 32–37: identity with the w-row's z-entry set to
`coeff`, written row-major in the source and then transposed. -/
def projection {α : Type} [Field α] (coeff : α) : Mat4 α :=
  Mat4.transpose
    ⟨1, 0, 0, 0,
     0, 1, 0, 0,
     0, 0, 1, 0,
     0, 0, coeff, 1⟩

/-- cgmath `InnerSpace::magnitude` for `Vector3<f32>`, over `ℝ`. -/
noncomputable def magnitude3 (v : V3 ℝ) : ℝ :=
  Real.sqrt (dot3 v v)

/-- cgmath `InnerSpace::normalize` for `Vector3<f32>`, over `ℝ`. -/
noncomputable def normalize3 (v : V3 ℝ) : V3 ℝ :=
  smul3 (1 / magnitude3 v) v

/-- `our_gl.rs` lines 39–60: the view matrix.  `minv` has the camera basis
vectors as rows (built by `from_cols` then `transpose`); `tr` translates by
`-center` (its fourth column is `-center.extend(-1.0) = (-center, 1)`). -/
noncomputable def lookat (eye center up : V3 ℝ) : Mat4 ℝ :=
  let z := normalize3 (sub3 eye center)
  let x := normalize3 (cross3 up z)
  let y := normalize3 (cross3 z x)
  let minv := (Mat4.fromCols (extend3 x 0) (extend3 y 0) (extend3 z 0)
    ⟨0, 0, 0, 1⟩).transpose
  let tr := Mat4.fromCols ⟨1, 0, 0, 0⟩ ⟨0, 1, 0, 0⟩ ⟨0, 0, 1, 0⟩
    ⟨-center.x, -center.y, -center.z, 1⟩
  minv.mul tr

/-! ### The rasterizer (`our_gl.rs` lines 75–132) -/

/-- The cross product `u = x.cross(y)` of `barycentric` (`our_gl.rs` lines
77–79): `x` packs the x-components of the two triangle edges from `pts[0]`
together with `pts[0].x - p.x`, and `y` does the same for y-components. -/
def baryU (pts : Fin 3 → V2 ℚ) (p : V2 ℚ) : V3 ℚ :=
  let x : V3 ℚ := ⟨(pts 2).x - (pts 0).x, (pts 1).x - (pts 0).x, (pts 0).x - p.x⟩
  let y : V3 ℚ := ⟨(pts 2).y - (pts 0).y, (pts 1).y - (pts 0).y, (pts 0).y - p.y⟩
  cross3 x y

/-- `our_gl.rs` lines 75–85: barycentric weights of `p` with respect to the
triangle `pts`, or the sentinel `(-1, 1, 1)` when `|u.z|` is below the
degeneracy threshold. -/
def barycentric (pts : Fin 3 → V2 ℚ) (p : V2 ℚ) : V3 ℚ :=
  let u := baryU pts p
  if EPSILON < |u.z| then
    ⟨1 - (u.x + u.y) / u.z, u.y / u.z, u.x / u.z⟩
  else
    ⟨-1, 1, 1⟩

/-- A 24-bit RGB pixel (`image::Rgb<u8>`), each channel in `[0, 255]`. -/
structure Rgb where
  r : ℕ
  g : ℕ
  b : ℕ
deriving DecidableEq, Repr

/-- An RGB frame buffer (`image::RgbImage`): dimensions plus pixel contents. -/
structure Img where
  width : ℕ
  height : ℕ
  pix : ℕ → ℕ → Rgb

/-- A grayscale buffer (`image::GrayImage`), used as depth / shadow buffer;
each stored value is a `u8` depth. -/
structure ZImg where
  width : ℕ
  height : ℕ
  pix : ℕ → ℕ → ℕ

/-- `put_pixel` on an RGB buffer. -/
def putRgb (im : Img) (x y : ℕ) (c : Rgb) : Img :=
  { im with pix := fun a b => if a = x ∧ b = y then c else im.pix a b }

/-- `put_pixel` on a grayscale buffer. -/
def putZ (im : ZImg) (x y : ℕ) (v : ℕ) : ZImg :=
  { im with pix := fun a b => if a = x ∧ b = y then v else im.pix a b }

/-- Rust saturating `f32 as i32` cast: truncation toward zero, clamped to
the `i32` range. -/
def castI32 (q : ℚ) : ℤ :=
  let t : ℤ := if q < 0 then ⌈q⌉ else ⌊q⌋
  max (-(2 ^ 31)) (min t (2 ^ 31 - 1))

/-- Rust saturating `f32 as u32` cast applied to an integer-valued `f32`
(the rasterizer only casts loop counters of type `i32` back to `u32`). -/
def castU32 (i : ℤ) : ℕ :=
  (min i (2 ^ 32 - 1)).toNat

/-- Rust `f32::clamp`. -/
def clampQ (q lo hi : ℚ) : ℚ :=
  min (max q lo) hi

/-- Rust saturating `f32 as u8` cast: truncation toward zero, clamped to
`[0, 255]`. -/
def castU8 (q : ℚ) : ℕ :=
  (max 0 (min (if q < 0 then ⌈q⌉ else ⌊q⌋) 255)).toNat

/-- Rust inclusive range `a..=b` over `i32`, as the list of its elements. -/
def intRange (a b : ℤ) : List ℤ :=
  (List.range (b + 1 - a).toNat).map (fun k : ℕ => a + (k : ℤ))

/-- `our_gl.rs` line 105: the three projected 2-D screen points
`(x/w, y/w)`. -/
def pts2dOf (pts : Fin 3 → V4 ℚ) : Fin 3 → V2 ℚ :=
  fun i => ⟨(pts i).x / (pts i).w, (pts i).y / (pts i).w⟩

/-- The evolving state of one `triangle` call: the two mutable buffers plus
an instrumentation trace — how many times `shader.fragment` was invoked,
the coordinates passed to `zbuffer.get_pixel`, and the coordinates passed to
the two `put_pixel` calls.  `get_pixel`/`put_pixel` panic when a traced
coordinate is outside the buffer, so absence of out-of-bounds traced
coordinates is absence of panics. -/
structure TriState where
  img : Img
  zbuf : ZImg
  notice : Bool
  frags : ℕ
  reads : List (ℕ × ℕ)
  writes : List (ℕ × ℕ)

/-- The clamped fragment depth of `our_gl.rs` line 114:
`(z / w).clamp(0.0, 255.0) as u8` for the perspective-interpolated `z`, `w`
of lines 111–112. -/
def fragDepth (pts : Fin 3 → V4 ℚ) (c : V3 ℚ) : ℕ :=
  let z := (pts 0).z * c.x + (pts 1).z * c.y + (pts 2).z * c.z
  let w := (pts 0).w * c.x + (pts 1).w * c.y + (pts 2).w * c.z
  castU8 (clampQ (z / w) 0 255)

/-- The pixel-rejection test of `our_gl.rs` lines 115–117: a pixel whose
barycentric weights contain a negative component is outside the triangle. -/
def outsideTest (c : V3 ℚ) : Prop :=
  c.x < 0 ∨ c.y < 0 ∨ c.z < 0

instance (c : V3 ℚ) : Decidable (outsideTest c) := by
  unfold outsideTest; infer_instance

/-- The body of the per-pixel loop of `triangle` (`our_gl.rs` lines
108–129) at integer pixel `(xy.1, xy.2)`.  The depth-buffer read happens
only when the weight test passes (Rust `||` short-circuits), and the
fragment shader runs only when the depth test also passes. -/
def pixelStep (pts : Fin 3 → V4 ℚ) (pts2d : Fin 3 → V2 ℚ)
    (frag : V3 ℚ → Rgb × Bool) (s : TriState) (xy : ℤ × ℤ) : TriState :=
  let p : V2 ℚ := ⟨(xy.1 : ℚ), (xy.2 : ℚ)⟩
  let c := barycentric pts2d p
  let d := fragDepth pts c
  if outsideTest c then s
  else
    let ux := castU32 xy.1
    let uy := castU32 xy.2
    let s := { s with reads := s.reads ++ [(ux, uy)] }
    if d ≤ s.zbuf.pix ux uy then s
    else
      let fc := frag c
      let s := { s with frags := s.frags + 1 }
      if fc.2 then
        { s with
          zbuf := putZ s.zbuf ux uy d
          img := putRgb s.img ux uy fc.1
          writes := s.writes ++ [(ux, uy)] }
      else s

/-- `our_gl.rs` lines 87–132: rasterize one triangle given in homogeneous
clip coordinates.  The early return of lines 97–100 fires as soon as a
vertex has a sign-negative x or y clip component, before any buffer is
touched; `notice` records the printed diagnostic.  Otherwise the integer
bounding box accumulates `min`/`max` of the truncated projected coordinates
starting from `i32::MAX` / `-i32::MAX` (lines 93–94, 101–102) and the pixel
loop runs `pixelStep` over it, x outer, y inner. -/
def triangle (pts : Fin 3 → V4 ℚ) (frag : V3 ℚ → Rgb × Bool)
    (image : Img) (zbuffer : ZImg) : TriState :=
  if (pts 0).x < 0 ∨ (pts 0).y < 0 ∨ (pts 1).x < 0 ∨ (pts 1).y < 0 ∨
      (pts 2).x < 0 ∨ (pts 2).y < 0 then
    ⟨image, zbuffer, true, 0, [], []⟩
  else
    let bminx := min (min (min (2 ^ 31 - 1) (castI32 ((pts 0).x / (pts 0).w)))
      (castI32 ((pts 1).x / (pts 1).w))) (castI32 ((pts 2).x / (pts 2).w))
    let bminy := min (min (min (2 ^ 31 - 1) (castI32 ((pts 0).y / (pts 0).w)))
      (castI32 ((pts 1).y / (pts 1).w))) (castI32 ((pts 2).y / (pts 2).w))
    let bmaxx := max (max (max (-(2 ^ 31 - 1)) (castI32 ((pts 0).x / (pts 0).w)))
      (castI32 ((pts 1).x / (pts 1).w))) (castI32 ((pts 2).x / (pts 2).w))
    let bmaxy := max (max (max (-(2 ^ 31 - 1)) (castI32 ((pts 0).y / (pts 0).w)))
      (castI32 ((pts 1).y / (pts 1).w))) (castI32 ((pts 2).y / (pts 2).w))
    let pixels := (intRange bminx bmaxx).flatMap
      (fun x => (intRange bminy bmaxy).map (fun y => (x, y)))
    pixels.foldl (pixelStep pts (pts2dOf pts) frag) ⟨image, zbuffer, false, 0, [], []⟩

/-! ### The shadow-aware shader's occlusion test (`shaders.rs`) -/

/-- `shaders.rs` line 8: `const WIGGLE: f32 = 5.0` — the shadow bias. -/
def WIGGLE : ℚ := 5

/-- Rust saturating `f32 as u32` cast on a possibly fractional value:
truncation toward zero clamped to the `u32` range (used for shadow-buffer
lookup coordinates in `ShadowShader::fragment`). -/
def castU32Q (q : ℚ) : ℕ :=
  (max 0 (min (if q < 0 then ⌈q⌉ else ⌊q⌋) (2 ^ 32 - 1))).toNat

/-- `shaders.rs` lines 537–540 (`ShadowShader::fragment`): interpolate the
per-vertex NDC positions by the barycentric weights, reproject through
`uniform_m_shadow` into the shadow pass's clip space, and divide by `w`. -/
def shadowReproject (mShadow : Mat4 ℚ) (ndcTri : Fin 3 → V3 ℚ) (bc : V3 ℚ) : V3 ℚ :=
  let q := add3 (add3 (smul3 bc.x (ndcTri 0)) (smul3 bc.y (ndcTri 1)))
    (smul3 bc.z (ndcTri 2))
  let sb4 := mShadow.mulVec (extend3 q 1)
  ⟨sb4.x / sb4.w, sb4.y / sb4.w, sb4.z / sb4.w⟩

/-- `shaders.rs` lines 541–547: the shadow attenuation factor — `1.0` when
the stored shadow-buffer depth at the reprojected point is (strictly) less
than the reprojected depth plus `WIGGLE`, else the dim factor `0.3`. -/
def shadowFactor (shadowBuffer : ZImg) (mShadow : Mat4 ℚ)
    (ndcTri : Fin 3 → V3 ℚ) (bc : V3 ℚ) : ℚ :=
  let sbP := shadowReproject mShadow ndcTri bc
  if (shadowBuffer.pix (castU32Q sbP.x) (castU32Q sbP.y) : ℚ) < sbP.z + WIGGLE
  then 1 else 3 / 10

/-- `shaders.rs` lines 606–608: one output colour channel of
`ShadowShader::fragment`:
`(20.0 + base * shadow * (1.2 * diff + 0.6 * spec)).min(255.0) as u8`. -/
def shadeChannel (base : ℕ) (shadow diff spec : ℚ) : ℕ :=
  castU8 (min (20 + (base : ℚ) * shadow * (12 / 10 * diff + 6 / 10 * spec)) 255)

/-! ### Geometric descriptions of triangle membership (for the barycentric
weight properties; these are spec-side notions, not code) -/

/-- `p` lies strictly inside the triangle: it is a convex combination of the
three vertices with all three coefficients positive. -/
def strictlyInside (pts : Fin 3 → V2 ℚ) (p : V2 ℚ) : Prop :=
  ∃ a b c : ℚ, 0 < a ∧ 0 < b ∧ 0 < c ∧ a + b + c = 1 ∧
    p.x = a * (pts 0).x + b * (pts 1).x + c * (pts 2).x ∧
    p.y = a * (pts 0).y + b * (pts 1).y + c * (pts 2).y

/-- `p` lies outside the (closed) triangle: it is not a convex combination
of the three vertices with nonnegative coefficients. -/
def outsideTri (pts : Fin 3 → V2 ℚ) (p : V2 ℚ) : Prop :=
  ¬ ∃ a b c : ℚ, 0 ≤ a ∧ 0 ≤ b ∧ 0 ≤ c ∧ a + b + c = 1 ∧
    p.x = a * (pts 0).x + b * (pts 1).x + c * (pts 2).x ∧
    p.y = a * (pts 0).y + b * (pts 1).y + c * (pts 2).y

/-! ### Concrete fixtures used to evaluate the model at specific inputs -/

/-- A fragment shader that always keeps the pixel and outputs white
(a minimal `Shader::fragment` instance for exercising `triangle`). -/
def whiteFrag : V3 ℚ → Rgb × Bool := fun _ => (⟨255, 255, 255⟩, true)

/-- An all-black colour buffer of the given dimensions. -/
def imgN (w h : ℕ) : Img := ⟨w, h, fun _ _ => ⟨0, 0, 0⟩⟩

/-- An all-zero depth buffer of the given dimensions. -/
def zbN (w h : ℕ) : ZImg := ⟨w, h, fun _ _ => 0⟩

/-- A triangle whose first vertex has negative `w`, so its post-divide
screen x-coordinate is negative although all clip components that the code
inspects are nonnegative. -/
def ptsNegW : Fin 3 → V4 ℚ := fun i =>
  if i = 0 then ⟨1, 1, -10, -1⟩ else if i = 1 then ⟨4, 1, 10, 1⟩ else ⟨1, 4, 10, 1⟩

/-- A triangle in the positive quadrant whose projected extent exceeds a
1×1 canvas. -/
def ptsWide : Fin 3 → V4 ℚ := fun i =>
  if i = 0 then ⟨0, 0, 5, 1⟩ else if i = 1 then ⟨2, 0, 5, 1⟩ else ⟨0, 2, 5, 1⟩

/-- A small triangle at uniform clip depth 100 covering pixel `(0,0)`. -/
def ptsDepth : Fin 3 → V4 ℚ := fun i =>
  if i = 0 then ⟨0, 0, 100, 1⟩ else if i = 1 then ⟨2, 0, 100, 1⟩ else ⟨0, 2, 100, 1⟩

/-- A fully degenerate triangle: all three vertices coincide. -/
def ptsDegen : Fin 3 → V4 ℚ := fun _ => ⟨1, 1, 5, 1⟩

/-- The unit right triangle in screen space. -/
def ptsUnit : Fin 3 → V2 ℚ := fun i =>
  if i = 0 then ⟨0, 0⟩ else if i = 1 then ⟨1, 0⟩ else ⟨0, 1⟩

/-- Identity 4×4 matrix. -/
def idMat4 : Mat4 ℚ :=
  ⟨1, 0, 0, 0, 0, 1, 0, 0, 0, 0, 1, 0, 0, 0, 0, 1⟩

/-- A 1×1 shadow buffer storing depth 100 everywhere. -/
def shadowBuf100 : ZImg := ⟨1, 1, fun _ _ => 100⟩

/-- An NDC triangle sitting at light-space depth 150. -/
def ndc150 : Fin 3 → V3 ℚ := fun _ => ⟨0, 0, 150⟩

/-- A concrete camera eye on the z-axis (unit distance from the origin, so
every normalization in `lookat` is exact). -/
def eyeR : V3 ℝ := ⟨0, 0, 1⟩

/-- The concrete camera target: the origin. -/
def centerR : V3 ℝ := ⟨0, 0, 0⟩

/-- The concrete up vector. -/
def upR : V3 ℝ := ⟨0, 1, 0⟩

/-! ## Helper lemmas -/

/-- Folding a function that fixes every state is the identity. -/
theorem foldlFixed {γ β : Type} (f : γ → β → γ) (h : ∀ s x, f s x = s) :
    ∀ (l : List β) (s : γ), l.foldl f s = s := by
  intro l
  induction l with
  | nil => intro s; rfl
  | cons x xs ih => intro s; rw [List.foldl_cons, h, ih]

/-- `pixelStep` never touches the `notice` flag. -/
theorem pixelStep_notice (pts : Fin 3 → V4 ℚ) (pts2d : Fin 3 → V2 ℚ)
    (frag : V3 ℚ → Rgb × Bool) (s : TriState) (xy : ℤ × ℤ) :
    (pixelStep pts pts2d frag s xy).notice = s.notice := by
  unfold pixelStep
  dsimp only
  split_ifs <;> rfl

/-- The pixel loop never touches the `notice` flag. -/
theorem foldl_pixelStep_notice (pts : Fin 3 → V4 ℚ) (pts2d : Fin 3 → V2 ℚ)
    (frag : V3 ℚ → Rgb × Bool) :
    ∀ (l : List (ℤ × ℤ)) (s : TriState),
      (l.foldl (pixelStep pts pts2d frag) s).notice = s.notice := by
  intro l
  induction l with
  | nil => intro s; rfl
  | cons x xs ih => intro s; rw [List.foldl_cons, ih, pixelStep_notice]

/-- A saturated `f32 as i32` cast of a nonnegative value is nonnegative. -/
theorem castI32_nonneg {q : ℚ} (hq : 0 ≤ q) : 0 ≤ castI32 q := by
  unfold castI32
  dsimp only
  rw [if_neg (not_lt.mpr hq)]
  exact le_max_of_le_right (le_min (Int.floor_nonneg.mpr hq) (by norm_num))

/-- A saturated `f32 as i32` cast never exceeds `i32::MAX`. -/
theorem castI32_le_max (q : ℚ) : castI32 q ≤ 2 ^ 31 - 1 := by
  unfold castI32
  dsimp only
  exact max_le (by norm_num) (min_le_right _ _)

/-- Members of the inclusive integer range `a..=b` lie between the ends. -/
theorem mem_intRange {a b x : ℤ} (h : x ∈ intRange a b) : a ≤ x ∧ x ≤ b := by
  unfold intRange at h
  obtain ⟨k, hk, rfl⟩ := List.mem_map.mp h
  have hk2 := List.mem_range.mp hk
  omega

/-- Each pixel step only ever accesses the buffers at its own pixel
coordinate: any traced read or write is either inherited or is the step's
cast coordinate pair. -/
theorem pixelStep_access_sub (pts : Fin 3 → V4 ℚ) (pts2d : Fin 3 → V2 ℚ)
    (frag : V3 ℚ → Rgb × Bool) (s : TriState) (xy : ℤ × ℤ) :
    (∀ q ∈ (pixelStep pts pts2d frag s xy).reads,
      q ∈ s.reads ∨ q = (castU32 xy.1, castU32 xy.2)) ∧
    (∀ q ∈ (pixelStep pts pts2d frag s xy).writes,
      q ∈ s.writes ∨ q = (castU32 xy.1, castU32 xy.2)) := by
  unfold pixelStep
  dsimp only
  split_ifs
  all_goals constructor
  all_goals intro q hq
  all_goals first
    | exact Or.inl hq
    | (rcases List.mem_append.mp hq with h | h
       · exact Or.inl h
       · rcases List.mem_singleton.mp h with rfl
         exact Or.inr rfl)

/-- Any property of access coordinates that holds on a pixel list and on
the initial trace is preserved by the pixel loop. -/
theorem foldl_pixelStep_access (pts : Fin 3 → V4 ℚ) (pts2d : Fin 3 → V2 ℚ)
    (frag : V3 ℚ → Rgb × Bool) (P : ℕ × ℕ → Prop) :
    ∀ (l : List (ℤ × ℤ)) (s : TriState),
      (∀ xy ∈ l, P (castU32 xy.1, castU32 xy.2)) →
      (∀ q ∈ s.reads, P q) →
      (∀ q ∈ s.writes, P q) →
      (∀ q ∈ (l.foldl (pixelStep pts pts2d frag) s).reads, P q) ∧
      (∀ q ∈ (l.foldl (pixelStep pts pts2d frag) s).writes, P q) := by
  intro l
  induction l with
  | nil => exact fun s _ hr hw => ⟨hr, hw⟩
  | cons x xs ih =>
    intro s hl hr hw
    rw [List.foldl_cons]
    refine ih _ (fun xy hxy => hl xy (List.mem_cons_of_mem _ hxy)) ?_ ?_
    · intro q hq
      rcases (pixelStep_access_sub pts pts2d frag s x).1 q hq with h | h
      · exact hr q h
      · rw [h]; exact hl x (List.mem_cons_self _ _)
    · intro q hq
      rcases (pixelStep_access_sub pts pts2d frag s x).2 q hq with h | h
      · exact hw q h
      · rw [h]; exact hl x (List.mem_cons_self _ _)

/-- Matrix multiplication composes with matrix–vector application. -/
theorem mulVec_mul {α : Type} [Field α] (m n : Mat4 α) (v : V4 α) :
    (m.mul n).mulVec v = m.mulVec (n.mulVec v) := by
  simp only [Mat4.mul, Mat4.fromCols, Mat4.mulVec, V4.mk.injEq]
  refine ⟨by ring, by ring, by ring, by ring⟩

/-- A scaled cross product with a scaled copy of `d` on the right is
orthogonal to `d`. -/
theorem dot_scaled_cross_right (u d : V3 ℝ) (k1 k2 : ℝ) :
    (smul3 k1 (cross3 u (smul3 k2 d))).x * d.x +
    (smul3 k1 (cross3 u (smul3 k2 d))).y * d.y +
    (smul3 k1 (cross3 u (smul3 k2 d))).z * d.z = 0 := by
  simp only [smul3, cross3]
  ring

/-- A scaled cross product with a scaled copy of `d` on the left is
orthogonal to `d`. -/
theorem dot_scaled_cross_left (u d : V3 ℝ) (k1 k2 : ℝ) :
    (smul3 k1 (cross3 (smul3 k2 d) u)).x * d.x +
    (smul3 k1 (cross3 (smul3 k2 d) u)).y * d.y +
    (smul3 k1 (cross3 (smul3 k2 d) u)).z * d.z = 0 := by
  simp only [smul3, cross3]
  ring

/-- The normalized copy of `v` dotted with `v` is the magnitude of `v`. -/
theorem dot_normalize_self (v : V3 ℝ) :
    (normalize3 v).x * v.x + (normalize3 v).y * v.y + (normalize3 v).z * v.z =
      magnitude3 v := by
  simp only [normalize3, smul3, magnitude3, dot3]
  have h := Real.div_sqrt (x := v.x * v.x + v.y * v.y + v.z * v.z)
  linear_combination h

/-- `lookat` sends the homogeneous `center` point to the origin of camera
space: the translation part is by `-center`. -/
theorem lookat_center_aux (eye center up : V3 ℝ) :
    (lookat eye center up).mulVec ⟨center.x, center.y, center.z, 1⟩ =
      ⟨0, 0, 0, 1⟩ := by
  unfold lookat
  dsimp only
  rw [mulVec_mul]
  have h1 : (Mat4.fromCols ⟨1, 0, 0, 0⟩ ⟨0, 1, 0, 0⟩ ⟨0, 0, 1, 0⟩
      ⟨-center.x, -center.y, -center.z, 1⟩).mulVec
        ⟨center.x, center.y, center.z, 1⟩ = ⟨0, 0, 0, 1⟩ := by
    simp only [Mat4.fromCols, Mat4.mulVec, V4.mk.injEq]
    refine ⟨by ring, by ring, by ring, by ring⟩
  rw [h1]
  simp only [Mat4.transpose, Mat4.fromCols, Mat4.mulVec, extend3, V4.mk.injEq]
  refine ⟨by ring, by ring, by ring, by ring⟩

/-- `lookat` sends the homogeneous `eye` point to `(0, 0, ‖eye-center‖)` in
camera space. -/
theorem lookat_eye_aux (eye center up : V3 ℝ) :
    (lookat eye center up).mulVec ⟨eye.x, eye.y, eye.z, 1⟩ =
      ⟨0, 0, magnitude3 (sub3 eye center), 1⟩ := by
  unfold lookat
  dsimp only
  rw [mulVec_mul]
  have h1 : (Mat4.fromCols ⟨1, 0, 0, 0⟩ ⟨0, 1, 0, 0⟩ ⟨0, 0, 1, 0⟩
      ⟨-center.x, -center.y, -center.z, 1⟩).mulVec ⟨eye.x, eye.y, eye.z, 1⟩ =
        ⟨(sub3 eye center).x, (sub3 eye center).y, (sub3 eye center).z, 1⟩ := by
    simp only [Mat4.fromCols, Mat4.mulVec, sub3, V4.mk.injEq]
    refine ⟨by ring, by ring, by ring, by ring⟩
  rw [h1]
  simp only [Mat4.transpose, Mat4.fromCols, Mat4.mulVec, extend3, V4.mk.injEq]
  refine ⟨?_, ?_, ?_, by ring⟩
  · have h2 := dot_scaled_cross_right up (sub3 eye center)
      (1 / magnitude3 (cross3 up (normalize3 (sub3 eye center))))
      (1 / magnitude3 (sub3 eye center))
    simp only [normalize3] at h2 ⊢
    linear_combination h2
  · have h2 := dot_scaled_cross_left
      (normalize3 (cross3 up (normalize3 (sub3 eye center)))) (sub3 eye center)
      (1 / magnitude3 (cross3 (normalize3 (sub3 eye center))
        (normalize3 (cross3 up (normalize3 (sub3 eye center))))))
      (1 / magnitude3 (sub3 eye center))
    simp only [normalize3] at h2 ⊢
    linear_combination h2
  · have h2 := dot_normalize_self (sub3 eye center)
    simp only [normalize3] at h2 ⊢
    linear_combination h2

/-- Distinct eye and center give a nonzero camera distance. -/
theorem magnitude_sub_ne_zero {eye center : V3 ℝ} (hec : eye ≠ center) :
    magnitude3 (sub3 eye center) ≠ 0 := by
  have hdot : 0 < dot3 (sub3 eye center) (sub3 eye center) := by
    by_contra hnp
    push_neg at hnp
    simp only [dot3, sub3] at hnp
    have h1 : eye.x - center.x = 0 := by
      nlinarith [sq_nonneg (eye.x - center.x), sq_nonneg (eye.y - center.y),
        sq_nonneg (eye.z - center.z)]
    have h2 : eye.y - center.y = 0 := by
      nlinarith [sq_nonneg (eye.x - center.x), sq_nonneg (eye.y - center.y),
        sq_nonneg (eye.z - center.z)]
    have h3 : eye.z - center.z = 0 := by
      nlinarith [sq_nonneg (eye.x - center.x), sq_nonneg (eye.y - center.y),
        sq_nonneg (eye.z - center.z)]
    apply hec
    obtain ⟨ex, ey, ez⟩ := eye
    obtain ⟨cx, cy, cz⟩ := center
    simp only [V3.mk.injEq]
    dsimp only at h1 h2 h3
    exact ⟨by linarith, by linarith, by linarith⟩
  unfold magnitude3
  exact ne_of_gt (Real.sqrt_pos.mpr hdot)

/-- Under the `main.rs` projection coefficient `-1/‖eye-center‖` the
composed pipeline matrix sends the homogeneous eye point to a vector with
`w = 0`. -/
theorem composed_eye_w_aux (eye center up : V3 ℝ) (x y w h : ℝ)
    (hmag : magnitude3 (sub3 eye center) ≠ 0) :
    ((((viewport x y w h).mul
        (projection (-1 / magnitude3 (sub3 eye center)))).mul
      (lookat eye center up)).mulVec ⟨eye.x, eye.y, eye.z, 1⟩).w = 0 := by
  rw [mulVec_mul, lookat_eye_aux, mulVec_mul]
  have hp : (projection (-1 / magnitude3 (sub3 eye center))).mulVec
      ⟨0, 0, magnitude3 (sub3 eye center), 1⟩ =
      ⟨0, 0, magnitude3 (sub3 eye center), 0⟩ := by
    simp only [projection, Mat4.transpose, Mat4.mulVec, V4.mk.injEq]
    refine ⟨by ring, by ring, by ring, ?_⟩
    field_simp
  rw [hp]
  simp only [viewport, Mat4.mulVec]
  ring

/-- The composed pipeline matrix sends the homogeneous center point to the
canvas center at half depth, with `w = 1`. -/
theorem composed_center_aux (eye center up : V3 ℝ) (x y w h coeff : ℝ) :
    (((viewport x y w h).mul (projection coeff)).mul
      (lookat eye center up)).mulVec ⟨center.x, center.y, center.z, 1⟩ =
      ⟨x + w / 2, y + h / 2, DEPTH ℝ / 2, 1⟩ := by
  rw [mulVec_mul, lookat_center_aux, mulVec_mul]
  have hp : (projection coeff).mulVec ⟨0, 0, 0, 1⟩ = ⟨0, 0, 0, 1⟩ := by
    simp only [projection, Mat4.transpose, Mat4.mulVec, V4.mk.injEq]
    refine ⟨by ring, by ring, by ring, by ring⟩
  rw [hp]
  simp only [viewport, Mat4.mulVec, V4.mk.injEq]
  refine ⟨by ring, by ring, by ring, by ring⟩

/-! ## Claim theorems -/

/-- C5: `barycentric` forms `u` as the cross product of the vector
`(pts[2].x - pts[0].x, pts[1].x - pts[0].x, pts[0].x - p.x)` with the
analogous vector of y-components, returns the weights
`(1 - (u.x + u.y)/u.z, u.y/u.z, u.x/u.z)` whenever `|u.z|` exceeds the
epsilon threshold, and otherwise returns the sentinel `(-1, 1, 1)`, which
contains a negative component and therefore fails the rasterizer's pixel
test. -/
theorem barycentric_formula (pts : Fin 3 → V2 ℚ) (p : V2 ℚ) :
    baryU pts p =
      cross3 ⟨(pts 2).x - (pts 0).x, (pts 1).x - (pts 0).x, (pts 0).x - p.x⟩
             ⟨(pts 2).y - (pts 0).y, (pts 1).y - (pts 0).y, (pts 0).y - p.y⟩ ∧
    (EPSILON < |(baryU pts p).z| →
      barycentric pts p =
        ⟨1 - ((baryU pts p).x + (baryU pts p).y) / (baryU pts p).z,
         (baryU pts p).y / (baryU pts p).z,
         (baryU pts p).x / (baryU pts p).z⟩) ∧
    (¬ EPSILON < |(baryU pts p).z| →
      barycentric pts p = ⟨-1, 1, 1⟩ ∧ outsideTest (barycentric pts p)) := by
  refine ⟨rfl, fun h => ?_, fun h => ?_⟩
  · simp only [barycentric]
    rw [if_pos h]
  · simp only [barycentric]
    rw [if_neg h]
    exact ⟨rfl, Or.inl (by norm_num)⟩

/-- Witness for C5 at the unit triangle and an interior query point. -/
theorem barycentric_formula_w :
    barycentric ptsUnit ⟨1/4, 1/4⟩ = ⟨1/2, 1/4, 1/4⟩ :=
  ((barycentric_formula ptsUnit ⟨1/4, 1/4⟩).2.1 (by with_unfolding_all decide)).trans (by with_unfolding_all decide)

/-- C8: `viewport(x, y, width, height)` applied to the homogeneous NDC
point `(a, b, c, 1)` yields
`(x + (a+1)·width/2, y + (b+1)·height/2, (c+1)·255/2, 1)`; for components
in `[-1, 1]` (and nonnegative width/height) the x-range maps into
`[x, x+width]`, y into `[y, y+height]`, and z into `[0, 255]`. -/
theorem viewport_maps_ndc (x y w h a b c : ℚ) :
    (viewport x y w h).mulVec ⟨a, b, c, 1⟩ =
      ⟨x + (a + 1) * w / 2, y + (b + 1) * h / 2, (c + 1) * 255 / 2, 1⟩ ∧
    (-1 ≤ a → a ≤ 1 → 0 ≤ w →
      x ≤ x + (a + 1) * w / 2 ∧ x + (a + 1) * w / 2 ≤ x + w) ∧
    (-1 ≤ b → b ≤ 1 → 0 ≤ h →
      y ≤ y + (b + 1) * h / 2 ∧ y + (b + 1) * h / 2 ≤ y + h) ∧
    (-1 ≤ c → c ≤ 1 →
      0 ≤ (c + 1) * 255 / 2 ∧ (c + 1) * 255 / 2 ≤ 255) := by
  refine ⟨?_, fun h1 h2 h3 => ⟨by nlinarith, by nlinarith⟩,
    fun h1 h2 h3 => ⟨by nlinarith, by nlinarith⟩,
    fun h1 h2 => ⟨by nlinarith, by nlinarith⟩⟩
  simp only [viewport, Mat4.mulVec, DEPTH, V4.mk.injEq]
  refine ⟨by ring, by ring, by ring, by ring⟩

/-- Witness for C8 at the `main.rs` viewport rectangle and the NDC
origin. -/
theorem viewport_maps_ndc_w :
    (viewport (100 : ℚ) 100 600 600).mulVec ⟨0, 0, 0, 1⟩ =
      ⟨100 + (0 + 1) * 600 / 2, 100 + (0 + 1) * 600 / 2, (0 + 1) * 255 / 2, 1⟩ ∧
    (100 : ℚ) ≤ 100 + (0 + 1) * 600 / 2 ∧
    100 + (0 + 1) * 600 / 2 ≤ (100 : ℚ) + 600 :=
  ⟨(viewport_maps_ndc 100 100 600 600 0 0 0).1,
   ((viewport_maps_ndc 100 100 600 600 0 0 0).2.1
     (by norm_num) (by norm_num) (by norm_num)).1,
   ((viewport_maps_ndc 100 100 600 600 0 0 0).2.1
     (by norm_num) (by norm_num) (by norm_num)).2⟩

/-- C9: a degenerate triangle (|u.z| within the epsilon threshold at every
query pixel) whose vertices pass the negative-coordinate check is a
complete no-op: the call returns the buffers unchanged, the fragment shader
is never invoked, and no buffer element is read or written (so no
out-of-bounds panic can occur). -/
theorem triangle_degenerate_noop (pts : Fin 3 → V4 ℚ)
    (frag : V3 ℚ → Rgb × Bool) (image : Img) (zbuffer : ZImg)
    (hpos : ∀ i : Fin 3, 0 ≤ (pts i).x ∧ 0 ≤ (pts i).y)
    (hdeg : ∀ p : V2 ℚ, |(baryU (pts2dOf pts) p).z| ≤ EPSILON) :
    triangle pts frag image zbuffer = ⟨image, zbuffer, false, 0, [], []⟩ := by
  have hreject : ¬((pts 0).x < 0 ∨ (pts 0).y < 0 ∨ (pts 1).x < 0 ∨
      (pts 1).y < 0 ∨ (pts 2).x < 0 ∨ (pts 2).y < 0) := by
    push_neg
    exact ⟨(hpos 0).1, (hpos 0).2, (hpos 1).1, (hpos 1).2, (hpos 2).1, (hpos 2).2⟩
  unfold triangle
  rw [if_neg hreject]
  refine foldlFixed _ (fun s xy => ?_) _ _
  have hb : barycentric (pts2dOf pts) ⟨(xy.1 : ℚ), (xy.2 : ℚ)⟩ = ⟨-1, 1, 1⟩ := by
    simp only [barycentric]
    rw [if_neg (not_lt.mpr (hdeg _))]
  unfold pixelStep
  dsimp only
  rw [hb]
  rw [if_pos (by norm_num [outsideTest])]

/-- Witness for C9: the fully collapsed triangle `ptsDegen`. -/
theorem triangle_degenerate_noop_w :
    triangle ptsDegen whiteFrag (imgN 3 3) (zbN 3 3) =
      ⟨imgN 3 3, zbN 3 3, false, 0, [], []⟩ :=
  triangle_degenerate_noop _ _ _ _ (by decide)
    (fun p => by norm_num [baryU, pts2dOf, ptsDegen, cross3, EPSILON])

/-- Each pixel step leaves the stored depth pointwise non-decreasing, and
strictly increases it wherever it changes the colour buffer. -/
theorem pixelStep_zbuf_mono (pts : Fin 3 → V4 ℚ) (pts2d : Fin 3 → V2 ℚ)
    (frag : V3 ℚ → Rgb × Bool) (s : TriState) (xy : ℤ × ℤ) (a b : ℕ) :
    s.zbuf.pix a b ≤ (pixelStep pts pts2d frag s xy).zbuf.pix a b ∧
    ((pixelStep pts pts2d frag s xy).img.pix a b ≠ s.img.pix a b →
      s.zbuf.pix a b < (pixelStep pts pts2d frag s xy).zbuf.pix a b) := by
  unfold pixelStep
  dsimp only
  split_ifs with h1 h2 h3
  · exact ⟨le_refl _, fun hc => absurd rfl hc⟩
  · exact ⟨le_refl _, fun hc => absurd rfl hc⟩
  · constructor
    · by_cases hab : a = castU32 xy.1 ∧ b = castU32 xy.2
      · obtain ⟨ha, hb⟩ := hab
        subst ha; subst hb
        simp only [putZ, and_self, if_true, eq_self_iff_true]
        exact le_of_lt (not_le.mp h2)
      · simp only [putZ]
        rw [if_neg hab]
    · intro hc
      by_cases hab : a = castU32 xy.1 ∧ b = castU32 xy.2
      · obtain ⟨ha, hb⟩ := hab
        subst ha; subst hb
        simp only [putZ, and_self, if_true, eq_self_iff_true]
        exact not_le.mp h2
      · exfalso
        apply hc
        simp only [putRgb]
        rw [if_neg hab]
  · exact ⟨le_refl _, fun hc => absurd rfl hc⟩

/-- Depth monotonicity propagated through the whole pixel loop. -/
theorem foldl_pixelStep_mono (pts : Fin 3 → V4 ℚ) (pts2d : Fin 3 → V2 ℚ)
    (frag : V3 ℚ → Rgb × Bool) :
    ∀ (l : List (ℤ × ℤ)) (s : TriState) (a b : ℕ),
      s.zbuf.pix a b ≤ (l.foldl (pixelStep pts pts2d frag) s).zbuf.pix a b ∧
      ((l.foldl (pixelStep pts pts2d frag) s).img.pix a b ≠ s.img.pix a b →
        s.zbuf.pix a b < (l.foldl (pixelStep pts pts2d frag) s).zbuf.pix a b) := by
  intro l
  induction l with
  | nil => exact fun s a b => ⟨le_refl _, fun hc => absurd rfl hc⟩
  | cons x xs ih =>
    intro s a b
    rw [List.foldl_cons]
    obtain ⟨h1, h2⟩ := pixelStep_zbuf_mono pts pts2d frag s x a b
    obtain ⟨h3, h4⟩ := ih (pixelStep pts pts2d frag s x) a b
    refine ⟨le_trans h1 h3, fun hc => ?_⟩
    by_cases he : (pixelStep pts pts2d frag s x).img.pix a b = s.img.pix a b
    · exact lt_of_le_of_lt h1 (h4 (fun h => hc (h.trans he)))
    · exact lt_of_lt_of_le (h2 he) h3

/-- C1: across one `triangle` call the stored depth at every pixel never
decreases; whenever the colour buffer at a pixel is overwritten the stored
depth there strictly increases; and a pixel step whose fragment depth is at
most the stored depth-buffer value is skipped — buffers and the fragment
invocation count are left unchanged. -/
theorem triangle_depth_monotone (pts : Fin 3 → V4 ℚ)
    (frag : V3 ℚ → Rgb × Bool) (image : Img) (zbuffer : ZImg) (a b : ℕ) :
    zbuffer.pix a b ≤ (triangle pts frag image zbuffer).zbuf.pix a b ∧
    ((triangle pts frag image zbuffer).img.pix a b ≠ image.pix a b →
      zbuffer.pix a b < (triangle pts frag image zbuffer).zbuf.pix a b) ∧
    (∀ (s : TriState) (xy : ℤ × ℤ),
      fragDepth pts (barycentric (pts2dOf pts) ⟨(xy.1 : ℚ), (xy.2 : ℚ)⟩) ≤
        s.zbuf.pix (castU32 xy.1) (castU32 xy.2) →
      (pixelStep pts (pts2dOf pts) frag s xy).img = s.img ∧
      (pixelStep pts (pts2dOf pts) frag s xy).zbuf = s.zbuf ∧
      (pixelStep pts (pts2dOf pts) frag s xy).frags = s.frags) := by
  have hskip : ∀ (s : TriState) (xy : ℤ × ℤ),
      fragDepth pts (barycentric (pts2dOf pts) ⟨(xy.1 : ℚ), (xy.2 : ℚ)⟩) ≤
        s.zbuf.pix (castU32 xy.1) (castU32 xy.2) →
      (pixelStep pts (pts2dOf pts) frag s xy).img = s.img ∧
      (pixelStep pts (pts2dOf pts) frag s xy).zbuf = s.zbuf ∧
      (pixelStep pts (pts2dOf pts) frag s xy).frags = s.frags := by
    intro s xy hle
    unfold pixelStep
    dsimp only
    split_ifs <;> exact ⟨rfl, rfl, rfl⟩
  unfold triangle
  split_ifs with h
  · exact ⟨le_refl _, fun hc => absurd rfl hc, hskip⟩
  · dsimp only
    exact ⟨(foldl_pixelStep_mono pts (pts2dOf pts) frag _
        ⟨image, zbuffer, false, 0, [], []⟩ a b).1,
      (foldl_pixelStep_mono pts (pts2dOf pts) frag _
        ⟨image, zbuffer, false, 0, [], []⟩ a b).2, hskip⟩

/-- Witness for C1: rasterizing `ptsDepth` over zeroed 3×3 buffers
overwrites pixel `(0,0)` and strictly raises its stored depth. -/
theorem triangle_depth_monotone_w :
    (zbN 3 3).pix 0 0 < (triangle ptsDepth whiteFrag (imgN 3 3) (zbN 3 3)).zbuf.pix 0 0 :=
  (triangle_depth_monotone ptsDepth whiteFrag (imgN 3 3) (zbN 3 3) 0 0).2.1
    (by with_unfolding_all decide)

/-- C2 counterexample: `ptsNegW`'s first vertex has screen x-coordinate
`x/w = 1/(-1) = -1 < 0`, so by the claim the call must return without
modifying any buffer; the code, which tests the sign of the clip-space
component rather than the quotient, rasterizes the triangle and changes the
depth buffer at pixel `(2,2)`. -/
theorem triangle_reject_postdivide_cex :
    ((ptsNegW 0).x / (ptsNegW 0).w < 0) ∧
    (triangle ptsNegW whiteFrag (imgN 3 3) (zbN 3 3)).zbuf.pix 2 2 ≠ (zbN 3 3).pix 2 2 := by
  with_unfolding_all decide

/-- C2 amended: the triangle is rejected (with the diagnostic notice, and
with no effect on any buffer) exactly when some vertex's clip-space x or y
component — before the perspective divide — is negative. -/
theorem triangle_reject_clipspace (pts : Fin 3 → V4 ℚ)
    (frag : V3 ℚ → Rgb × Bool) (image : Img) (zbuffer : ZImg) :
    ((triangle pts frag image zbuffer).notice = true ↔
      ∃ i : Fin 3, (pts i).x < 0 ∨ (pts i).y < 0) ∧
    ((∃ i : Fin 3, (pts i).x < 0 ∨ (pts i).y < 0) →
      triangle pts frag image zbuffer = ⟨image, zbuffer, true, 0, [], []⟩) := by
  by_cases h : (pts 0).x < 0 ∨ (pts 0).y < 0 ∨ (pts 1).x < 0 ∨ (pts 1).y < 0 ∨
      (pts 2).x < 0 ∨ (pts 2).y < 0
  · have he : ∃ i : Fin 3, (pts i).x < 0 ∨ (pts i).y < 0 := by
      rcases h with h | h | h | h | h | h
      exacts [⟨0, Or.inl h⟩, ⟨0, Or.inr h⟩, ⟨1, Or.inl h⟩, ⟨1, Or.inr h⟩,
        ⟨2, Or.inl h⟩, ⟨2, Or.inr h⟩]
    have ht : triangle pts frag image zbuffer = ⟨image, zbuffer, true, 0, [], []⟩ := by
      unfold triangle
      rw [if_pos h]
    rw [ht]
    exact ⟨⟨fun _ => he, fun _ => rfl⟩, fun _ => rfl⟩
  · have hno : ¬ ∃ i : Fin 3, (pts i).x < 0 ∨ (pts i).y < 0 := by
      rintro ⟨i, hi⟩
      fin_cases i <;> tauto
    have ht : (triangle pts frag image zbuffer).notice = false := by
      unfold triangle
      rw [if_neg h]
      exact foldl_pixelStep_notice pts (pts2dOf pts) frag _ _
    refine ⟨?_, fun hcon => absurd hcon hno⟩
    rw [ht]
    simp only [Bool.false_eq_true, false_iff]
    exact hno

/-- Witness for C2's amended theorem: a triangle with a negative clip-space
y-component is rejected with buffers untouched. -/
theorem triangle_reject_clipspace_w :
    triangle (fun _ => (⟨3, -1, 0, 1⟩ : V4 ℚ)) whiteFrag (imgN 3 3) (zbN 3 3) =
      ⟨imgN 3 3, zbN 3 3, true, 0, [], []⟩ :=
  (triangle_reject_clipspace (fun _ => ⟨3, -1, 0, 1⟩) whiteFrag (imgN 3 3) (zbN 3 3)).2
    ⟨0, Or.inr (by norm_num)⟩

/-- C3 counterexample: rasterizing `ptsWide` into 1×1 buffers is not
rejected, yet the depth buffer is read at coordinate `(1,0)`, which is not
inside the 1-pixel-wide buffer — the bounding box is not clamped to the
canvas, so `get_pixel` panics on this input. -/
theorem triangle_bbox_oob_cex :
    (triangle ptsWide whiteFrag (imgN 1 1) (zbN 1 1)).notice = false ∧
    (1, 0) ∈ (triangle ptsWide whiteFrag (imgN 1 1) (zbN 1 1)).reads ∧
    ¬ ((1 : ℕ) < (zbN 1 1).width) := by
  with_unfolding_all decide

/-- C3 amended: the bounding box is not clamped to the canvas; in-bounds
access holds only under the extra assumptions that every vertex's `w` is
positive and every truncated projected coordinate lies below both buffers'
dimensions.  Under those assumptions every depth-buffer read and every
colour/depth write is at an in-bounds coordinate. -/
theorem triangle_access_inbounds (pts : Fin 3 → V4 ℚ)
    (frag : V3 ℚ → Rgb × Bool) (image : Img) (zbuffer : ZImg)
    (hpos : ∀ i : Fin 3, 0 ≤ (pts i).x ∧ 0 ≤ (pts i).y)
    (hw : ∀ i : Fin 3, 0 < (pts i).w)
    (hx : ∀ i : Fin 3, castI32 ((pts i).x / (pts i).w) <
      ((min image.width zbuffer.width : ℕ) : ℤ))
    (hy : ∀ i : Fin 3, castI32 ((pts i).y / (pts i).w) <
      ((min image.height zbuffer.height : ℕ) : ℤ)) :
    (∀ q ∈ (triangle pts frag image zbuffer).reads,
      q.1 < image.width ∧ q.1 < zbuffer.width ∧
      q.2 < image.height ∧ q.2 < zbuffer.height) ∧
    (∀ q ∈ (triangle pts frag image zbuffer).writes,
      q.1 < image.width ∧ q.1 < zbuffer.width ∧
      q.2 < image.height ∧ q.2 < zbuffer.height) := by
  have hreject : ¬((pts 0).x < 0 ∨ (pts 0).y < 0 ∨ (pts 1).x < 0 ∨
      (pts 1).y < 0 ∨ (pts 2).x < 0 ∨ (pts 2).y < 0) := by
    push_neg
    exact ⟨(hpos 0).1, (hpos 0).2, (hpos 1).1, (hpos 1).2, (hpos 2).1, (hpos 2).2⟩
  unfold triangle
  rw [if_neg hreject]
  dsimp only
  refine foldl_pixelStep_access pts (pts2dOf pts) frag _ _
    ⟨image, zbuffer, false, 0, [], []⟩ ?_ ?_ ?_
  · intro xy hxy
    obtain ⟨xv, hxv, hxy2⟩ := List.mem_flatMap.mp hxy
    obtain ⟨yv, hyv, rfl⟩ := List.mem_map.mp hxy2
    obtain ⟨hx1, hx2⟩ := mem_intRange hxv
    obtain ⟨hy1, hy2⟩ := mem_intRange hyv
    have c0x := castI32_nonneg (div_nonneg (hpos 0).1 (le_of_lt (hw 0)))
    have c1x := castI32_nonneg (div_nonneg (hpos 1).1 (le_of_lt (hw 1)))
    have c2x := castI32_nonneg (div_nonneg (hpos 2).1 (le_of_lt (hw 2)))
    have c0y := castI32_nonneg (div_nonneg (hpos 0).2 (le_of_lt (hw 0)))
    have c1y := castI32_nonneg (div_nonneg (hpos 1).2 (le_of_lt (hw 1)))
    have c2y := castI32_nonneg (div_nonneg (hpos 2).2 (le_of_lt (hw 2)))
    have m0x := hx 0
    have m1x := hx 1
    have m2x := hx 2
    have m0y := hy 0
    have m1y := hy 1
    have m2y := hy 2
    simp only [castU32]
    exact ⟨by omega, by omega, by omega, by omega⟩
  · intro q hq
    exact absurd hq (List.not_mem_nil q)
  · intro q hq
    exact absurd hq (List.not_mem_nil q)

/-- Witness for C3's amended theorem: `ptsDepth` projects inside a 3×3
canvas, so all its accesses are in bounds. -/
theorem triangle_access_inbounds_w :
    (∀ q ∈ (triangle ptsDepth whiteFrag (imgN 3 3) (zbN 3 3)).reads,
      q.1 < (imgN 3 3).width ∧ q.1 < (zbN 3 3).width ∧
      q.2 < (imgN 3 3).height ∧ q.2 < (zbN 3 3).height) ∧
    (∀ q ∈ (triangle ptsDepth whiteFrag (imgN 3 3) (zbN 3 3)).writes,
      q.1 < (imgN 3 3).width ∧ q.1 < (zbN 3 3).width ∧
      q.2 < (imgN 3 3).height ∧ q.2 < (zbN 3 3).height) :=
  triangle_access_inbounds ptsDepth whiteFrag (imgN 3 3) (zbN 3 3)
    (by with_unfolding_all decide) (by with_unfolding_all decide)
    (by with_unfolding_all decide) (by with_unfolding_all decide)

/-- C4 counterexample: with the shadow buffer storing depth 100 and a
fragment whose reprojected light-space depth is 150, the claim's condition
"depth greater than stored + bias" holds (150 > 100 + 5), so the claim says
the contribution must be dimmed to 0.3; the code's comparison
`stored < depth + WIGGLE` yields the full factor 1.0 instead. -/
theorem shadow_occlusion_direction_cex :
    (shadowBuf100.pix 0 0 : ℚ) + WIGGLE <
      (shadowReproject idMat4 ndc150 ⟨1, 0, 0⟩).z ∧
    shadowFactor shadowBuf100 idMat4 ndc150 ⟨1, 0, 0⟩ = 1 := by
  with_unfolding_all decide

/-- C4 amended: the fragment is occluded (dim factor 0.3) exactly when the
stored shadow-buffer depth is at least the reprojected light-space depth
plus the bias `WIGGLE`; otherwise (stored depth strictly below reprojected
depth plus bias) the contribution is full (factor 1.0). -/
theorem shadow_factor_spec (sb : ZImg) (m : Mat4 ℚ) (ndc : Fin 3 → V3 ℚ)
    (bc : V3 ℚ) :
    (shadowFactor sb m ndc bc = 3 / 10 ↔
      (shadowReproject m ndc bc).z + WIGGLE ≤
        (sb.pix (castU32Q (shadowReproject m ndc bc).x)
                (castU32Q (shadowReproject m ndc bc).y) : ℚ)) ∧
    (shadowFactor sb m ndc bc = 1 ↔
      (sb.pix (castU32Q (shadowReproject m ndc bc).x)
              (castU32Q (shadowReproject m ndc bc).y) : ℚ) <
        (shadowReproject m ndc bc).z + WIGGLE) := by
  unfold shadowFactor
  dsimp only
  split_ifs with h
  · refine ⟨⟨fun h1 => absurd h1 (by norm_num), fun h1 => by linarith⟩,
      ⟨fun _ => h, fun _ => rfl⟩⟩
  · refine ⟨⟨fun _ => not_lt.mp h, fun _ => rfl⟩,
      ⟨fun h1 => absurd h1 (by norm_num), fun h1 => absurd h1 h⟩⟩

/-- Witness for C4's amended theorem at the concrete occluded fragment:
stored depth 200 exceeds reprojected depth 150 plus bias, so the factor is
the dim 0.3. -/
theorem shadow_factor_spec_w :
    shadowFactor ⟨1, 1, fun _ _ => 200⟩ idMat4 ndc150 ⟨1, 0, 0⟩ = 3 / 10 :=
  (shadow_factor_spec ⟨1, 1, fun _ _ => 200⟩ idMat4 ndc150 ⟨1, 0, 0⟩).1.mpr
    (by with_unfolding_all decide)

/-- C6: for a non-degenerate triangle, the weights returned by
`barycentric` at a point strictly inside are all positive and sum exactly
to 1; at a point outside the closed triangle at least one weight is
negative. -/
theorem barycentric_inside_outside (pts : Fin 3 → V2 ℚ) (p : V2 ℚ)
    (hnd : EPSILON < |(baryU pts p).z|) :
    (strictlyInside pts p →
      0 < (barycentric pts p).x ∧ 0 < (barycentric pts p).y ∧
      0 < (barycentric pts p).z ∧
      (barycentric pts p).x + (barycentric pts p).y + (barycentric pts p).z = 1) ∧
    (outsideTri pts p →
      (barycentric pts p).x < 0 ∨ (barycentric pts p).y < 0 ∨
      (barycentric pts p).z < 0) := by
  have hz : (baryU pts p).z ≠ 0 := by
    intro h0
    rw [h0] at hnd
    norm_num [EPSILON] at hnd
  have hb : barycentric pts p =
      ⟨1 - ((baryU pts p).x + (baryU pts p).y) / (baryU pts p).z,
       (baryU pts p).y / (baryU pts p).z, (baryU pts p).x / (baryU pts p).z⟩ := by
    simp only [barycentric]
    rw [if_pos hnd]
  constructor
  · rintro ⟨a, b, c, ha, hb2, hc, hsum, hx, hy⟩
    have haeq : a = 1 - b - c := by linarith
    have hux : (baryU pts p).x = c * (baryU pts p).z := by
      simp only [baryU, cross3]
      rw [hx, hy, haeq]
      ring
    have huy : (baryU pts p).y = b * (baryU pts p).z := by
      simp only [baryU, cross3]
      rw [hx, hy, haeq]
      ring
    have hxv : (barycentric pts p).x = a := by
      rw [hb]
      dsimp only
      rw [hux, huy, haeq]
      field_simp
      ring
    have hyv : (barycentric pts p).y = b := by
      rw [hb]
      dsimp only
      rw [huy]
      exact mul_div_cancel_right₀ b hz
    have hzv : (barycentric pts p).z = c := by
      rw [hb]
      dsimp only
      rw [hux]
      exact mul_div_cancel_right₀ c hz
    rw [hxv, hyv, hzv]
    exact ⟨ha, hb2, hc, hsum⟩
  · intro hout
    by_contra hneg
    push_neg at hneg
    obtain ⟨hx0, hy0, hz0⟩ := hneg
    apply hout
    refine ⟨(barycentric pts p).x, (barycentric pts p).y, (barycentric pts p).z,
      hx0, hy0, hz0, ?_, ?_, ?_⟩
    · rw [hb]
      dsimp only
      field_simp
      ring
    · rw [hb]
      dsimp only
      field_simp
      simp only [baryU, cross3]
      ring
    · rw [hb]
      dsimp only
      field_simp
      simp only [baryU, cross3]
      ring

/-- Witness for C6 at the unit right triangle, which is non-degenerate
(`|u.z| = 1`). -/
theorem barycentric_inside_outside_w :
    (strictlyInside ptsUnit ⟨1/4, 1/4⟩ →
      0 < (barycentric ptsUnit ⟨1/4, 1/4⟩).x ∧
      0 < (barycentric ptsUnit ⟨1/4, 1/4⟩).y ∧
      0 < (barycentric ptsUnit ⟨1/4, 1/4⟩).z ∧
      (barycentric ptsUnit ⟨1/4, 1/4⟩).x + (barycentric ptsUnit ⟨1/4, 1/4⟩).y +
        (barycentric ptsUnit ⟨1/4, 1/4⟩).z = 1) ∧
    (outsideTri ptsUnit ⟨1/4, 1/4⟩ →
      (barycentric ptsUnit ⟨1/4, 1/4⟩).x < 0 ∨
      (barycentric ptsUnit ⟨1/4, 1/4⟩).y < 0 ∨
      (barycentric ptsUnit ⟨1/4, 1/4⟩).z < 0) :=
  barycentric_inside_outside ptsUnit ⟨1/4, 1/4⟩ (by with_unfolding_all decide)

/-- C7 counterexample: for the concrete camera `eye = (0,0,1)`,
`center = origin`, `up = (0,1,0)` and the `main.rs` viewport rectangle, the
composed matrix `viewport × projection(-1/‖eye-center‖) × lookat` applied
to the homogeneous eye point has `w = 0`, so the perspective divide is
degenerate: the divided z is not the maximum depth and the divided x does
not even reach the viewport offset. -/
theorem roundtrip_eye_cex :
    ((((viewport (100 : ℝ) 100 600 600).mul
        (projection (-1 / magnitude3 (sub3 eyeR centerR)))).mul
      (lookat eyeR centerR upR)).mulVec ⟨eyeR.x, eyeR.y, eyeR.z, 1⟩).w = 0 ∧
    ((((viewport (100 : ℝ) 100 600 600).mul
        (projection (-1 / magnitude3 (sub3 eyeR centerR)))).mul
      (lookat eyeR centerR upR)).mulVec ⟨eyeR.x, eyeR.y, eyeR.z, 1⟩).z /
    ((((viewport (100 : ℝ) 100 600 600).mul
        (projection (-1 / magnitude3 (sub3 eyeR centerR)))).mul
      (lookat eyeR centerR upR)).mulVec ⟨eyeR.x, eyeR.y, eyeR.z, 1⟩).w ≠ DEPTH ℝ ∧
    ¬ (100 ≤ ((((viewport (100 : ℝ) 100 600 600).mul
        (projection (-1 / magnitude3 (sub3 eyeR centerR)))).mul
      (lookat eyeR centerR upR)).mulVec ⟨eyeR.x, eyeR.y, eyeR.z, 1⟩).x /
      ((((viewport (100 : ℝ) 100 600 600).mul
        (projection (-1 / magnitude3 (sub3 eyeR centerR)))).mul
      (lookat eyeR centerR upR)).mulVec ⟨eyeR.x, eyeR.y, eyeR.z, 1⟩).w) := by
  have hm : magnitude3 (sub3 eyeR centerR) ≠ 0 :=
    magnitude_sub_ne_zero (by norm_num [eyeR, centerR, V3.mk.injEq])
  have hw0 := composed_eye_w_aux eyeR centerR upR 100 100 600 600 hm
  refine ⟨hw0, ?_, ?_⟩
  · rw [hw0, div_zero]
    norm_num [DEPTH]
  · rw [hw0, div_zero]
    norm_num

/-- C7 amended: the composed matrix
`viewport(x,y,w,h) × projection(-1/‖eye-center‖) × lookat(eye,center,up)`
maps the eye point to `w = 0` (a degenerate perspective divide, so the
claimed round trip fails at the eye); the `center` point instead lands,
already with `w = 1`, at the canvas center `(x + w/2, y + h/2)` within the
viewport rectangle, at half the depth range — not the maximum depth. -/
theorem roundtrip_center_depth (eye center up : V3 ℝ) (x y w h : ℝ)
    (hec : eye ≠ center) (hwid : 0 ≤ w) (hhgt : 0 ≤ h) :
    ((((viewport x y w h).mul
        (projection (-1 / magnitude3 (sub3 eye center)))).mul
      (lookat eye center up)).mulVec ⟨eye.x, eye.y, eye.z, 1⟩).w = 0 ∧
    ((((viewport x y w h).mul
        (projection (-1 / magnitude3 (sub3 eye center)))).mul
      (lookat eye center up)).mulVec ⟨center.x, center.y, center.z, 1⟩ =
      ⟨x + w / 2, y + h / 2, DEPTH ℝ / 2, 1⟩) ∧
    x ≤ x + w / 2 ∧ x + w / 2 ≤ x + w ∧
    y ≤ y + h / 2 ∧ y + h / 2 ≤ y + h ∧
    DEPTH ℝ / 2 ≠ DEPTH ℝ :=
  ⟨composed_eye_w_aux eye center up x y w h (magnitude_sub_ne_zero hec),
   composed_center_aux eye center up x y w h _,
   by linarith, by linarith, by linarith, by linarith, by norm_num [DEPTH]⟩

/-- Witness for C7's amended theorem at the concrete camera and the
`main.rs` viewport rectangle. -/
theorem roundtrip_center_depth_w :
    ((((viewport (100 : ℝ) 100 600 600).mul
        (projection (-1 / magnitude3 (sub3 eyeR centerR)))).mul
      (lookat eyeR centerR upR)).mulVec ⟨eyeR.x, eyeR.y, eyeR.z, 1⟩).w = 0 ∧
    ((((viewport (100 : ℝ) 100 600 600).mul
        (projection (-1 / magnitude3 (sub3 eyeR centerR)))).mul
      (lookat eyeR centerR upR)).mulVec ⟨centerR.x, centerR.y, centerR.z, 1⟩ =
      ⟨100 + 600 / 2, 100 + 600 / 2, DEPTH ℝ / 2, 1⟩) ∧
    (100 : ℝ) ≤ 100 + 600 / 2 ∧ (100 : ℝ) + 600 / 2 ≤ 100 + 600 ∧
    (100 : ℝ) ≤ 100 + 600 / 2 ∧ (100 : ℝ) + 600 / 2 ≤ 100 + 600 ∧
    DEPTH ℝ / 2 ≠ DEPTH ℝ :=
  roundtrip_center_depth eyeR centerR upR 100 100 600 600
    (by norm_num [eyeR, centerR, V3.mk.injEq]) (by norm_num) (by norm_num)

/-- C10: `lookat(eye, center, up)` maps the point `center` — not `eye` —
to the origin of camera space (the translation applied is by `-center`),
and maps `eye` to `(0, 0, ‖eye-center‖)`: the eye sits on the camera-space
z-axis at distance `‖eye-center‖` from the origin. -/
theorem lookat_center_eye (eye center up : V3 ℝ) (hec : eye ≠ center)
    (hup : cross3 up (sub3 eye center) ≠ (⟨0, 0, 0⟩ : V3 ℝ)) :
    (lookat eye center up).mulVec ⟨center.x, center.y, center.z, 1⟩ =
      ⟨0, 0, 0, 1⟩ ∧
    (lookat eye center up).mulVec ⟨eye.x, eye.y, eye.z, 1⟩ =
      ⟨0, 0, magnitude3 (sub3 eye center), 1⟩ :=
  ⟨lookat_center_aux eye center up, lookat_eye_aux eye center up⟩

/-- Witness for C10 at the concrete camera configuration. -/
theorem lookat_center_eye_w :
    (lookat eyeR centerR upR).mulVec ⟨centerR.x, centerR.y, centerR.z, 1⟩ =
      ⟨0, 0, 0, 1⟩ ∧
    (lookat eyeR centerR upR).mulVec ⟨eyeR.x, eyeR.y, eyeR.z, 1⟩ =
      ⟨0, 0, magnitude3 (sub3 eyeR centerR), 1⟩ :=
  lookat_center_eye eyeR centerR upR
    (by norm_num [eyeR, centerR, V3.mk.injEq])
    (by norm_num [cross3, sub3, upR, eyeR, centerR, V3.mk.injEq])

end TinyRenderer
